import Mathlib

/-!
Verification development for the malgazer file-analysis core
(`library/files.py`, class `FileObject`).

The stateful Python methods are embedded as explicit state-passing
functions: each operation takes a `FileObject` and returns the final
`FileObject` together with an `Except` outcome (a Python exception is an
`Except.error` carrying the state at the moment the exception was
raised, since Python exceptions do not roll back attribute writes).
Bytes are `Nat`, Python `int` parameters are `Int`, and the entropy
values computed by the engine are real numbers.
-/

namespace Malgazer

/-- Error kinds of the embedded operations.
`offsetRange` and `lengthRange` are the two explicit `IndexError`
raises of `FileObject.running_entropy`; `engineInvalid` is the entropy
engine rejecting its inputs; `invariantViolation` is the
`raise Exception("This should happen.  Check this code.")` branch;
`indexEmpty` models the implicit `IndexError` of indexing `[0]` into an
empty result list; `notFound` is the missing-file failure of the
constructor. -/
inductive Err where
  | notFound
  | offsetRange
  | lengthRange
  | engineInvalid
  | invariantViolation
  | indexEmpty
deriving DecidableEq

/-- The spec's `InvalidRange` error kind: a requested
offset/length/window_size combination that does not fit within buffer
bounds, whichever stage rejects it. -/
def Err.isInvalidRange : Err → Bool
  | .offsetRange => true
  | .lengthRange => true
  | .engineInvalid => true
  | _ => false

/-- A section handle as exposed by the external `pefile` collaborator:
the decoded, NUL-stripped name plus the raw data pointer and size used
by `parsed_file_running_entropy` / `parsed_file_entropy`. -/
structure PESection where
  Name : String
  PointerToRawData : Int
  SizeOfRawData : Int

/-- One entry of `parsedfile['running_entropy']['sections']`. -/
structure SectionRE where
  name : String
  offset : Int
  length : Int
  entropy_window_length : Int
  normalize : Bool
  running_entropy : List ℝ

/-- One entry of `parsedfile['entropy']['sections']`. -/
structure SectionEnt where
  name : String
  offset : Int
  length : Int
  normalize : Bool
  entropy : ℝ

/-- Python list slicing `l[a:b]` (step 1): a negative bound counts from
the end, bounds are clamped to the list. In `running_entropy` the start
is the already-validated non-negative `offset` but the stop
`length + offset` can be any integer. -/
def pySlice (l : List Nat) (a b : Int) : List Nat :=
  let n : Int := l.length
  let start : Int := if a < 0 then max (n + a) 0 else min a n
  let stop : Int := if b < 0 then max (n + b) 0 else min b n
  (l.take stop.toNat).drop start.toNat

/-- Fueled partition of a list into consecutive slices of `w` elements
(the final slice may be shorter).  The fuel is instantiated with the
list length in `chunkList`. -/
def chunkAux (w : Nat) : Nat → List Nat → List (List Nat)
  | _, [] => []
  | 0, _ :: _ => []
  | fuel + 1, a :: as => (a :: as).take w :: chunkAux w fuel ((a :: as).drop w)

/-- Partition of `l` into consecutive non-overlapping slices of `w`
elements, in left-to-right order, the final slice possibly shorter. -/
def chunkList (w : Nat) (l : List Nat) : List (List Nat) :=
  chunkAux w l.length l

/-- Ceiling division on naturals: `natCeilDiv a b = ⌈a / b⌉` for `b > 0`. -/
def natCeilDiv (a b : Nat) : Nat :=
  (a + b - 1) / b

/-- Modelled from the spec: the per-slice Shannon-entropy score of the
entropy engine (`library/entropy.py` is not under `src/`).  Frequency
histogram over the 256 byte values, `H = -Σ p_i * log2(p_i)` over the
values with `p_i > 0` where `p_i` is the count of byte value `i`
divided by the slice length; if `normalize` is set the result is
divided by 8. -/
noncomputable def sliceEntropy (slice : List Nat) (normalize : Bool) : ℝ :=
  let total : ℝ := slice.length
  let H : ℝ := -(∑ b ∈ Finset.range 256,
    (if slice.count b = 0 then 0
     else ((slice.count b : ℝ) / total) * Real.logb 2 ((slice.count b : ℝ) / total)))
  if normalize then H / 8 else H

/-- Modelled from the spec: `RunningEntropy(window, normalize).calculate(data)`
of the absent `library/entropy.py`.  Per the spec the inputs must be a
non-empty byte sequence and a positive window size not exceeding the
data length; a window size that does not fit is an invalid-range error,
never silently clamped.  On valid inputs the data is partitioned into
consecutive non-overlapping `window`-sized slices (final slice possibly
shorter, scored over its own actual byte count) and each slice receives
its own Shannon-entropy score, in slice order. -/
noncomputable def calculate (window : Int) (normalize : Bool) (data : List Nat) :
    Except Err (List ℝ) :=
  if window < 1 ∨ (data.length : Int) < window then Except.error Err.engineInvalid
  else Except.ok ((chunkList window.toNat data).map (fun s => sliceEntropy s normalize))

/-- The analysis-session state: the fields of the Python `FileObject`.
`running_entropy_offset` / `running_entropy_length` are attributes that
do not exist before the first successful validation, hence `Option`;
`parsed_running_entropy` and `parsed_entropy` model the
`parsedfile['running_entropy']` / `parsedfile['entropy']` storage. -/
structure FileObject where
  filename : String
  filetype : String
  data : List Nat
  file_size : Nat
  md5 : String
  sha256 : String
  parsedfile : Option (List PESection)
  running_entropy_data : Option (List ℝ)
  running_entropy_window_size : Int
  running_entropy_offset : Option Int
  running_entropy_length : Option Int
  parsed_running_entropy : Option (List SectionRE)
  parsed_entropy : Option (List SectionEnt)
  file_entropy : Option ℝ

/-- Does `p` start the list `l`? -/
def listStartsWith : List Char → List Char → Bool
  | [], _ => true
  | _ :: _, [] => false
  | p :: ps, c :: cs => p == c && listStartsWith ps cs

/-- Does `pat` occur as a contiguous run inside `l`? -/
def hasSub (pat : List Char) : List Char → Bool
  | [] => pat.isEmpty
  | c :: cs => listStartsWith pat (c :: cs) || hasSub pat cs

/-- The dispatch test of `_parse_file_type`:
`re.match("PE.*MS Windows.*", filetype)` — the type label starts with
`PE` and contains `MS Windows` afterwards. -/
def matchPEWindows (s : String) : Bool :=
  listStartsWith "PE".toList s.toList && hasSub "MS Windows".toList (s.toList.drop 2)

/-- `FileObject.__init__` followed by `_read_file` and
`_parse_file_type`.  The file system and the external collaborators are
parameters: `fileExists` is `os.path.exists(filename)`, `contents` the
bytes the file would yield, `filetype` the label `magic.from_file`
returns, `peSections` the section list the external `pefile` parser
would expose, and `md5Hash` / `sha256Hash` the two streaming hash
collaborators.  If the file does not exist the constructor fails at
once, before any byte is read or hashed, and produces no session. -/
def FileObject.init (md5Hash sha256Hash : List Nat → String) (fileExists : Bool)
    (filename : String) (contents : List Nat) (filetype : String)
    (peSections : List PESection) : Except Err FileObject :=
  if !fileExists then Except.error Err.notFound
  else Except.ok
    { filename := filename
      filetype := filetype
      data := contents
      file_size := contents.length
      md5 := md5Hash contents
      sha256 := sha256Hash contents
      parsedfile := if matchPEWindows filetype then some peSections else none
      running_entropy_data := none
      running_entropy_window_size := 0
      running_entropy_offset := none
      running_entropy_length := none
      parsed_running_entropy := none
      parsed_entropy := none
      file_entropy := none }

/-- The tail of `running_entropy` after both range validations passed:
slice the buffer, record the introspection fields, then run the engine.
Note the three parameter fields are written before the engine runs, so
an engine failure leaves them updated while `running_entropy_data` is
only written on success. -/
noncomputable def reFinish (fo : FileObject) (window_size : Int) (normalize : Bool)
    (offset length : Int) : FileObject × Except Err (List ℝ) :=
  let sliced := pySlice fo.data offset (length + offset)
  let fo1 := { fo with
    running_entropy_offset := some offset
    running_entropy_length := some length
    running_entropy_window_size := window_size }
  match calculate window_size normalize sliced with
  | Except.error e => (fo1, Except.error e)
  | Except.ok vals => ({ fo1 with running_entropy_data := some vals }, Except.ok vals)

/-- `FileObject.running_entropy(window_size, normalize, offset, length)`
(source defaults: `window_size=256`, `normalize=True`, `offset=0`,
`length=None`).  Validates the offset (`offset > file_size - window_size
or offset < 0` raises), then the provided length (`length + offset >
file_size` raises), defaults an omitted length to `file_size - offset`,
slices the buffer and delegates to the engine. -/
noncomputable def FileObject.running_entropy (fo : FileObject) (window_size : Int)
    (normalize : Bool) (offset : Int) (length : Option Int) :
    FileObject × Except Err (List ℝ) :=
  if offset > (fo.file_size : Int) - window_size ∨ offset < 0 then
    (fo, Except.error Err.offsetRange)
  else
    match length with
    | some l =>
        if l + offset > (fo.file_size : Int) then (fo, Except.error Err.lengthRange)
        else reFinish fo window_size normalize offset l
    | none => reFinish fo window_size normalize offset ((fo.file_size : Int) - offset)

/-- The outcome (ignoring the state) of `running_entropy`, as a pure
function of the only state the method reads: the buffer and
`file_size`. -/
noncomputable def reOutcome (dataL : List Nat) (fs : Nat) (window_size : Int)
    (normalize : Bool) (offset : Int) (length : Option Int) : Except Err (List ℝ) :=
  if offset > (fs : Int) - window_size ∨ offset < 0 then Except.error Err.offsetRange
  else
    match length with
    | some l =>
        if l + offset > (fs : Int) then Except.error Err.lengthRange
        else calculate window_size normalize (pySlice dataL offset (l + offset))
    | none =>
        calculate window_size normalize
          (pySlice dataL offset (((fs : Int) - offset) + offset))

/-- `FileObject.entropy(normalize)`: run the engine over the whole
buffer with `window = len(data)`, reject a result of more than one
value as an internal invariant violation, store and return the single
value. -/
noncomputable def FileObject.entropy (fo : FileObject) (normalize : Bool) :
    FileObject × Except Err ℝ :=
  match calculate (fo.data.length : Int) normalize fo.data with
  | Except.error e => (fo, Except.error e)
  | Except.ok vals =>
      if vals.length > 1 then (fo, Except.error Err.invariantViolation)
      else
        match vals.head? with
        | none => (fo, Except.error Err.indexEmpty)
        | some v => ({ fo with file_entropy := some v }, Except.ok v)

/-- The per-section outcome of the `running_entropy` call issued by the
region loops for section `s`. -/
noncomputable def secOutcome (fo : FileObject) (window_size : Int) (normalize : Bool)
    (s : PESection) : Except Err (List ℝ) :=
  reOutcome fo.data fo.file_size window_size normalize s.PointerToRawData
    (some s.SizeOfRawData)

/-- The section loop of `parsed_file_running_entropy`: for each section
in input order call `running_entropy(window_size, normalize,
offset=PointerToRawData, length=SizeOfRawData)`, append the wrapped
record to the accumulated `sections` list (kept in the session state as
Python mutates the stored dict in place), and stop at the first
exception. -/
noncomputable def pfreLoop (window_size : Int) (normalize : Bool) :
    FileObject → List PESection → List SectionRE →
    FileObject × Except Err (List SectionRE)
  | fo, [], acc => (fo, Except.ok acc)
  | fo, sec :: rest, acc =>
      match fo.running_entropy window_size normalize sec.PointerToRawData
          (some sec.SizeOfRawData) with
      | (fo1, Except.error e) => (fo1, Except.error e)
      | (fo1, Except.ok vals) =>
          let entry : SectionRE :=
            { name := sec.Name
              offset := sec.PointerToRawData
              length := sec.SizeOfRawData
              entropy_window_length := window_size
              normalize := normalize
              running_entropy := vals }
          pfreLoop window_size normalize
            { fo1 with parsed_running_entropy := some (acc ++ [entry]) }
            rest (acc ++ [entry])

/-- `FileObject.parsed_file_running_entropy(window_size, normalize)`
(source defaults: `window_size=256`, `normalize=True`): returns `none`
at once if the file was not parsed, otherwise runs the per-section
loop over the parsed sections. -/
noncomputable def FileObject.parsed_file_running_entropy (fo : FileObject)
    (window_size : Int) (normalize : Bool) :
    FileObject × Except Err (Option (List SectionRE)) :=
  match fo.parsedfile with
  | none => (fo, Except.ok none)
  | some secs =>
      match pfreLoop window_size normalize
          { fo with parsed_running_entropy := some [] } secs [] with
      | (fo1, Except.error e) => (fo1, Except.error e)
      | (fo1, Except.ok lst) => (fo1, Except.ok (some lst))

/-- The section loop of `parsed_file_entropy`: for each section call
`running_entropy(length, normalize, offset=PointerToRawData,
length=SizeOfRawData)` (window size equal to the section length), raise
an invariant violation if more than one value comes back, and append
the single value wrapped with the section descriptor. -/
noncomputable def pfeLoop (normalize : Bool) :
    FileObject → List PESection → List SectionEnt →
    FileObject × Except Err (List SectionEnt)
  | fo, [], acc => (fo, Except.ok acc)
  | fo, sec :: rest, acc =>
      match fo.running_entropy sec.SizeOfRawData normalize sec.PointerToRawData
          (some sec.SizeOfRawData) with
      | (fo1, Except.error e) => (fo1, Except.error e)
      | (fo1, Except.ok vals) =>
          if vals.length > 1 then (fo1, Except.error Err.invariantViolation)
          else
            match vals.head? with
            | none => (fo1, Except.error Err.indexEmpty)
            | some v =>
                let entry : SectionEnt :=
                  { name := sec.Name
                    offset := sec.PointerToRawData
                    length := sec.SizeOfRawData
                    normalize := normalize
                    entropy := v }
                pfeLoop normalize
                  { fo1 with parsed_entropy := some (acc ++ [entry]) }
                  rest (acc ++ [entry])

/-- `FileObject.parsed_file_entropy(normalize)` (source default:
`normalize=True`): returns `none` at once if the file was not parsed,
otherwise runs the per-section aggregate loop. -/
noncomputable def FileObject.parsed_file_entropy (fo : FileObject) (normalize : Bool) :
    FileObject × Except Err (Option (List SectionEnt)) :=
  match fo.parsedfile with
  | none => (fo, Except.ok none)
  | some secs =>
      match pfeLoop normalize { fo with parsed_entropy := some [] } secs [] with
      | (fo1, Except.error e) => (fo1, Except.error e)
      | (fo1, Except.ok lst) => (fo1, Except.ok (some lst))

/-- The session identity established at construction: buffer, size and
the two content hashes. -/
def sameIdentity (fo fo' : FileObject) : Prop :=
  fo'.data = fo.data ∧ fo'.file_size = fo.file_size ∧
    fo'.md5 = fo.md5 ∧ fo'.sha256 = fo.sha256

/-- A concrete session over the given bytes, as produced by a
successful construction of a plain (non-PE) file. -/
def testFO (bytes : List Nat) : FileObject :=
  { filename := "sample.bin"
    filetype := "data"
    data := bytes
    file_size := bytes.length
    md5 := "d41"
    sha256 := "e3b"
    parsedfile := none
    running_entropy_data := none
    running_entropy_window_size := 0
    running_entropy_offset := none
    running_entropy_length := none
    parsed_running_entropy := none
    parsed_entropy := none
    file_entropy := none }

/-- A concrete session whose detected type has the `pefile`
collaborator attached, exposing the given sections. -/
def testPE (bytes : List Nat) (secs : List PESection) : FileObject :=
  { testFO bytes with
    filetype := "PE32 executable for MS Windows"
    parsedfile := some secs }

/-! ## Supporting lemmas -/

theorem chunkAux_nil (w : Nat) (fuel : Nat) : chunkAux w fuel [] = [] := by
  cases fuel <;> rfl

theorem natCeilDiv_eq (w n : Nat) (hw : 1 ≤ w) (hn : 1 ≤ n) :
    natCeilDiv n w = (n - 1) / w + 1 := by
  unfold natCeilDiv
  rw [show n + w - 1 = (n - 1) + w by omega, Nat.add_div_right _ (by omega)]

theorem natCeilDiv_zero (w : Nat) (hw : 1 ≤ w) : natCeilDiv 0 w = 0 := by
  unfold natCeilDiv
  exact Nat.div_eq_of_lt (by omega)

theorem ceil_step (w n : Nat) (hw : 1 ≤ w) (hn : 1 ≤ n) :
    natCeilDiv (n - w) w + 1 = natCeilDiv n w := by
  rcases le_or_lt n w with hle | hlt
  · rw [show n - w = 0 by omega, natCeilDiv_zero w hw, natCeilDiv_eq w n hw hn]
    have : (n - 1) / w = 0 := Nat.div_eq_of_lt (by omega)
    omega
  · rw [natCeilDiv_eq w (n - w) hw (by omega), natCeilDiv_eq w n hw hn]
    have : n - 1 = (n - w - 1) + w := by omega
    rw [this, Nat.add_div_right _ (by omega)]

theorem chunkAux_length (w : Nat) (hw : 1 ≤ w) :
    ∀ fuel l, l.length ≤ fuel → (chunkAux w fuel l).length = natCeilDiv l.length w := by
  intro fuel
  induction fuel with
  | zero =>
    intro l hl
    have : l = [] := by
      cases l
      · rfl
      · simp at hl
    subst this
    simp [chunkAux_nil, natCeilDiv_zero w hw]
  | succ fuel ih =>
    intro l hl
    cases l with
    | nil => simp [chunkAux_nil, natCeilDiv_zero w hw]
    | cons a as =>
      have hdl : ((a :: as).drop w).length ≤ fuel := by
        rw [List.length_drop]
        simp at hl ⊢
        omega
      simp only [chunkAux, List.length_cons, ih _ hdl, List.length_drop]
      exact ceil_step w (as.length + 1) hw (by omega)

theorem chunkAux_flatten (w : Nat) (hw : 1 ≤ w) :
    ∀ fuel l, l.length ≤ fuel → (chunkAux w fuel l).flatten = l := by
  intro fuel
  induction fuel with
  | zero =>
    intro l hl
    have : l = [] := by
      cases l
      · rfl
      · simp at hl
    subst this
    simp [chunkAux_nil]
  | succ fuel ih =>
    intro l hl
    cases l with
    | nil => simp [chunkAux_nil]
    | cons a as =>
      have hdl : ((a :: as).drop w).length ≤ fuel := by
        rw [List.length_drop]
        simp at hl ⊢
        omega
      simp only [chunkAux, List.flatten_cons, ih _ hdl]
      exact List.take_append_drop w (a :: as)

theorem chunkAux_mem (w : Nat) (hw : 1 ≤ w) :
    ∀ fuel l, l.length ≤ fuel → ∀ c ∈ chunkAux w fuel l, c ≠ [] ∧ c.length ≤ w := by
  intro fuel
  induction fuel with
  | zero =>
    intro l hl c hc
    have : l = [] := by
      cases l
      · rfl
      · simp at hl
    subst this
    simp [chunkAux_nil] at hc
  | succ fuel ih =>
    intro l hl c hc
    cases l with
    | nil => simp [chunkAux_nil] at hc
    | cons a as =>
      simp only [chunkAux, List.mem_cons] at hc
      rcases hc with rfl | hc
      · constructor
        · cases w with
          | zero => omega
          | succ k => simp
        · rw [List.length_take]
          omega
      · have hdl : ((a :: as).drop w).length ≤ fuel := by
          rw [List.length_drop]
          simp at hl ⊢
          omega
        exact ih _ hdl c hc

theorem chunkAux_ne_nil (w : Nat) :
    ∀ fuel l, l ≠ [] → l.length ≤ fuel → chunkAux w fuel l ≠ [] := by
  intro fuel l hne hl
  cases l with
  | nil => exact absurd rfl hne
  | cons a as =>
    cases fuel with
    | zero => simp at hl
    | succ k => simp [chunkAux]

theorem chunkAux_dropLast (w : Nat) (hw : 1 ≤ w) :
    ∀ fuel l, l.length ≤ fuel → ∀ c ∈ (chunkAux w fuel l).dropLast, c.length = w := by
  intro fuel
  induction fuel with
  | zero =>
    intro l hl c hc
    have : l = [] := by
      cases l
      · rfl
      · simp at hl
    subst this
    simp [chunkAux_nil] at hc
  | succ fuel ih =>
    intro l hl c hc
    cases l with
    | nil => simp [chunkAux_nil] at hc
    | cons a as =>
      simp only [chunkAux] at hc
      by_cases hdrop : (a :: as).drop w = []
      · rw [hdrop, chunkAux_nil] at hc
        simp at hc
      · have hdl : ((a :: as).drop w).length ≤ fuel := by
          rw [List.length_drop]
          simp at hl ⊢
          omega
        have hrest : chunkAux w fuel ((a :: as).drop w) ≠ [] :=
          chunkAux_ne_nil w fuel _ hdrop hdl
        rw [List.dropLast_cons_of_ne_nil hrest] at hc
        rcases List.mem_cons.mp hc with rfl | hc
        · rw [List.length_take]
          have : (a :: as).drop w ≠ [] := hdrop
          have hlen : w < (a :: as).length := by
            by_contra hcon
            exact hdrop (List.drop_eq_nil_of_le (by omega))
          omega
        · exact ih _ hdl c hc

theorem chunkList_length (w : Nat) (hw : 1 ≤ w) (l : List Nat) :
    (chunkList w l).length = natCeilDiv l.length w :=
  chunkAux_length w hw l.length l le_rfl

theorem chunkList_flatten (w : Nat) (hw : 1 ≤ w) (l : List Nat) :
    (chunkList w l).flatten = l :=
  chunkAux_flatten w hw l.length l le_rfl

theorem chunkList_mem (w : Nat) (hw : 1 ≤ w) (l : List Nat) :
    ∀ c ∈ chunkList w l, c ≠ [] ∧ c.length ≤ w :=
  chunkAux_mem w hw l.length l le_rfl

theorem chunkList_dropLast (w : Nat) (hw : 1 ≤ w) (l : List Nat) :
    ∀ c ∈ (chunkList w l).dropLast, c.length = w :=
  chunkAux_dropLast w hw l.length l le_rfl

theorem chunkList_self (l : List Nat) (h : 1 ≤ l.length) : chunkList l.length l = [l] := by
  cases l with
  | nil => simp at h
  | cons a as =>
    simp only [chunkList, List.length_cons, chunkAux]
    rw [List.take_of_length_le (by simp), List.drop_eq_nil_of_le (by simp)]
    simp [chunkAux_nil]

theorem pySlice_length_exact (l : List Nat) (a c : Int) (ha : 0 ≤ a) (hc : 0 ≤ c)
    (hfit : a + c ≤ (l.length : Int)) : ((pySlice l a (c + a)).length : Int) = c := by
  simp only [pySlice, List.length_drop, List.length_take]
  rw [if_neg (by omega), if_neg (by omega)]
  rw [min_eq_left (show c + a ≤ (l.length : Int) by omega),
    min_eq_left (show a ≤ (l.length : Int) by omega)]
  have h1 : (c + a).toNat ≤ l.length := by omega
  rw [min_eq_left h1]
  omega

theorem pySlice_length_le (l : List Nat) (a c : Int) (ha : 0 ≤ a) (hc : 0 ≤ c) :
    ((pySlice l a (c + a)).length : Int) ≤ c := by
  simp only [pySlice, List.length_drop, List.length_take]
  rw [if_neg (by omega), if_neg (by omega)]
  rcases min_cases (c + a) ((l.length : Int)) with ⟨h1, h2⟩ | ⟨h1, h2⟩ <;>
    rcases min_cases a ((l.length : Int)) with ⟨h3, h4⟩ | ⟨h3, h4⟩ <;>
      rw [h1, h3] <;> omega

theorem pySlice_full (l : List Nat) : pySlice l 0 (l.length : Int) = l := by
  simp only [pySlice]
  rw [if_neg (by omega), if_neg (by omega)]
  simp

theorem calculate_ok_iff (w : Int) (n : Bool) (d : List Nat) (out : List ℝ) :
    calculate w n d = Except.ok out ↔
      1 ≤ w ∧ w ≤ (d.length : Int) ∧
        out = (chunkList w.toNat d).map (fun s => sliceEntropy s n) := by
  unfold calculate
  by_cases hc : w < 1 ∨ (d.length : Int) < w
  · rw [if_pos hc]
    simp only [iff_iff_implies_and_implies]
    constructor
    · intro h
      exact absurd h (by simp)
    · rintro ⟨h1, h2, -⟩
      omega
  · rw [if_neg hc]
    push_neg at hc
    simp only [Except.ok.injEq]
    constructor
    · intro h
      exact ⟨by omega, by omega, h.symm⟩
    · rintro ⟨-, -, h⟩
      exact h.symm

theorem calculate_error (w : Int) (n : Bool) (d : List Nat) (e : Err)
    (h : calculate w n d = Except.error e) : e = Err.engineInvalid := by
  unfold calculate at h
  split at h
  · cases h
    rfl
  · cases h

theorem reFinish_snd (fo : FileObject) (w : Int) (n : Bool) (off l : Int) :
    (reFinish fo w n off l).2 = calculate w n (pySlice fo.data off (l + off)) := by
  unfold reFinish
  cases h : calculate w n (pySlice fo.data off (l + off)) <;> simp [h]

theorem sameIdentity_refl (fo : FileObject) : sameIdentity fo fo :=
  ⟨rfl, rfl, rfl, rfl⟩

theorem sameIdentity_trans {a b c : FileObject} (h1 : sameIdentity a b)
    (h2 : sameIdentity b c) : sameIdentity a c :=
  ⟨h2.1.trans h1.1, h2.2.1.trans h1.2.1, h2.2.2.1.trans h1.2.2.1, h2.2.2.2.trans h1.2.2.2⟩

theorem reFinish_fst_identity (fo : FileObject) (w : Int) (n : Bool) (off l : Int) :
    sameIdentity fo (reFinish fo w n off l).1 := by
  unfold reFinish
  cases h : calculate w n (pySlice fo.data off (l + off)) <;>
    simp [h, sameIdentity]

theorem running_entropy_snd (fo : FileObject) (w : Int) (n : Bool) (off : Int)
    (lenOpt : Option Int) :
    (fo.running_entropy w n off lenOpt).2 = reOutcome fo.data fo.file_size w n off lenOpt := by
  cases lenOpt with
  | none =>
    by_cases hc : off > (fo.file_size : Int) - w ∨ off < 0
    · simp [FileObject.running_entropy, reOutcome, hc]
    · simp [FileObject.running_entropy, reOutcome, hc, reFinish_snd]
  | some l =>
    by_cases hc : off > (fo.file_size : Int) - w ∨ off < 0
    · simp [FileObject.running_entropy, reOutcome, hc]
    · by_cases hl : l + off > (fo.file_size : Int)
      · simp [FileObject.running_entropy, reOutcome, hc, hl]
      · simp [FileObject.running_entropy, reOutcome, hc, hl, reFinish_snd]

theorem running_entropy_fst_identity (fo : FileObject) (w : Int) (n : Bool) (off : Int)
    (lenOpt : Option Int) : sameIdentity fo (fo.running_entropy w n off lenOpt).1 := by
  cases lenOpt with
  | none =>
    by_cases hc : off > (fo.file_size : Int) - w ∨ off < 0
    · simp only [FileObject.running_entropy, if_pos hc]
      exact sameIdentity_refl fo
    · simp only [FileObject.running_entropy, if_neg hc]
      exact reFinish_fst_identity fo w n off _
  | some l =>
    by_cases hc : off > (fo.file_size : Int) - w ∨ off < 0
    · simp only [FileObject.running_entropy, if_pos hc]
      exact sameIdentity_refl fo
    · simp only [FileObject.running_entropy, if_neg hc]
      by_cases hl : l + off > (fo.file_size : Int)
      · simp only [if_pos hl]
        exact sameIdentity_refl fo
      · simp only [if_neg hl]
        exact reFinish_fst_identity fo w n off l

theorem secOutcome_congr {fo fo' : FileObject} (h : sameIdentity fo fo') (w : Int)
    (n : Bool) (s : PESection) : secOutcome fo' w n s = secOutcome fo w n s := by
  unfold secOutcome
  rw [h.1, h.2.1]

theorem running_entropy_sec (fo : FileObject) (w : Int) (n : Bool) (s : PESection) :
    (fo.running_entropy w n s.PointerToRawData (some s.SizeOfRawData)).2
      = secOutcome fo w n s :=
  running_entropy_snd fo w n s.PointerToRawData (some s.SizeOfRawData)

theorem reOutcome_error_kind (dataL : List Nat) (fs : Nat) (w : Int) (n : Bool)
    (off : Int) (lenOpt : Option Int) (e : Err)
    (h : reOutcome dataL fs w n off lenOpt = Except.error e) : e.isInvalidRange = true := by
  cases lenOpt with
  | none =>
    by_cases hc : off > (fs : Int) - w ∨ off < 0
    · simp only [reOutcome, if_pos hc, Except.error.injEq] at h
      rw [← h]
      rfl
    · simp only [reOutcome, if_neg hc] at h
      rw [calculate_error _ _ _ _ h]
      rfl
  | some l =>
    by_cases hc : off > (fs : Int) - w ∨ off < 0
    · simp only [reOutcome, if_pos hc, Except.error.injEq] at h
      rw [← h]
      rfl
    · by_cases hl : l + off > (fs : Int)
      · simp only [reOutcome, if_neg hc, if_pos hl, Except.error.injEq] at h
        rw [← h]
        rfl
      · simp only [reOutcome, if_neg hc, if_neg hl] at h
        rw [calculate_error _ _ _ _ h]
        rfl

theorem running_entropy_error_kind (fo : FileObject) (w : Int) (n : Bool) (off : Int)
    (lenOpt : Option Int) (e : Err)
    (h : (fo.running_entropy w n off lenOpt).2 = Except.error e) :
    e.isInvalidRange = true := by
  rw [running_entropy_snd] at h
  exact reOutcome_error_kind fo.data fo.file_size w n off lenOpt e h

theorem entropy_fst_identity (fo : FileObject) (n : Bool) :
    sameIdentity fo (fo.entropy n).1 := by
  unfold FileObject.entropy
  cases h : calculate (fo.data.length : Int) n fo.data with
  | error e => exact sameIdentity_refl fo
  | ok vals =>
    by_cases hlen : vals.length > 1
    · simp only [if_pos hlen]
      exact sameIdentity_refl fo
    · simp only [if_neg hlen]
      cases hh : vals.head? with
      | none => exact sameIdentity_refl fo
      | some v => exact ⟨rfl, rfl, rfl, rfl⟩

theorem pfreLoop_fst_identity (w : Int) (n : Bool) :
    ∀ secs fo acc, sameIdentity fo (pfreLoop w n fo secs acc).1 := by
  intro secs
  induction secs with
  | nil =>
    intro fo acc
    exact sameIdentity_refl fo
  | cons sec rest ih =>
    intro fo acc
    rcases hre : fo.running_entropy w n sec.PointerToRawData (some sec.SizeOfRawData)
      with ⟨fo1, out⟩
    have hid1 : sameIdentity fo fo1 := by
      have h := running_entropy_fst_identity fo w n sec.PointerToRawData
        (some sec.SizeOfRawData)
      rw [hre] at h
      exact h
    cases out with
    | error e =>
      simp only [pfreLoop, hre]
      exact hid1
    | ok vals =>
      simp only [pfreLoop, hre]
      exact sameIdentity_trans (sameIdentity_trans hid1 ⟨rfl, rfl, rfl, rfl⟩) (ih _ _)

theorem pfeLoop_fst_identity (n : Bool) :
    ∀ secs fo acc, sameIdentity fo (pfeLoop n fo secs acc).1 := by
  intro secs
  induction secs with
  | nil =>
    intro fo acc
    exact sameIdentity_refl fo
  | cons sec rest ih =>
    intro fo acc
    rcases hre : fo.running_entropy sec.SizeOfRawData n sec.PointerToRawData
      (some sec.SizeOfRawData) with ⟨fo1, out⟩
    have hid1 : sameIdentity fo fo1 := by
      have h := running_entropy_fst_identity fo sec.SizeOfRawData n sec.PointerToRawData
        (some sec.SizeOfRawData)
      rw [hre] at h
      exact h
    cases out with
    | error e =>
      simp only [pfeLoop, hre]
      exact hid1
    | ok vals =>
      simp only [pfeLoop, hre]
      by_cases hlen : vals.length > 1
      · simp only [if_pos hlen]
        exact hid1
      · simp only [if_neg hlen]
        cases hh : vals.head? with
        | none => exact hid1
        | some v =>
          exact sameIdentity_trans (sameIdentity_trans hid1 ⟨rfl, rfl, rfl, rfl⟩) (ih _ _)

theorem pfre_fst_identity (fo : FileObject) (w : Int) (n : Bool) :
    sameIdentity fo (fo.parsed_file_running_entropy w n).1 := by
  cases hp : fo.parsedfile with
  | none =>
    simp only [FileObject.parsed_file_running_entropy, hp]
    exact sameIdentity_refl fo
  | some secs =>
    simp only [FileObject.parsed_file_running_entropy, hp]
    rcases hl : pfreLoop w n
        { fo with parsedfile := some secs, parsed_running_entropy := some [] } secs []
      with ⟨fo1, out⟩
    have hid : sameIdentity fo fo1 := by
      have h := pfreLoop_fst_identity w n secs
        { fo with parsedfile := some secs, parsed_running_entropy := some [] } []
      rw [hl] at h
      exact sameIdentity_trans ⟨rfl, rfl, rfl, rfl⟩ h
    cases out with
    | error e => exact hid
    | ok lst => exact hid

theorem pfe_fst_identity (fo : FileObject) (n : Bool) :
    sameIdentity fo (fo.parsed_file_entropy n).1 := by
  cases hp : fo.parsedfile with
  | none =>
    simp only [FileObject.parsed_file_entropy, hp]
    exact sameIdentity_refl fo
  | some secs =>
    simp only [FileObject.parsed_file_entropy, hp]
    rcases hl : pfeLoop n
        { fo with parsedfile := some secs, parsed_entropy := some [] } secs []
      with ⟨fo1, out⟩
    have hid : sameIdentity fo fo1 := by
      have h := pfeLoop_fst_identity n secs
        { fo with parsedfile := some secs, parsed_entropy := some [] } []
      rw [hl] at h
      exact sameIdentity_trans ⟨rfl, rfl, rfl, rfl⟩ h
    cases out with
    | error e => exact hid
    | ok lst => exact hid

theorem calculate_big_window (w : Int) (n : Bool) (d : List Nat) (out : List ℝ)
    (h : calculate w n d = Except.ok out) (hle : (d.length : Int) ≤ w) :
    out = [sliceEntropy d n] := by
  obtain ⟨hw1, hw2, hout⟩ := (calculate_ok_iff _ _ _ _).mp h
  have hwl : w.toNat = d.length := by omega
  rw [hout, hwl, chunkList_self d (by omega)]
  simp

theorem entropy_ok (fo : FileObject) (n : Bool) (hne : fo.data ≠ []) :
    (fo.entropy n).2 = Except.ok (sliceEntropy fo.data n) := by
  have hlen : 1 ≤ fo.data.length := List.length_pos.mpr hne
  have ht : ((fo.data.length : Int)).toNat = fo.data.length := by omega
  have hcalc : calculate (fo.data.length : Int) n fo.data
      = Except.ok [sliceEntropy fo.data n] := by
    rw [calculate_ok_iff]
    refine ⟨by omega, le_refl _, ?_⟩
    rw [ht, chunkList_self _ hlen]
    simp
  unfold FileObject.entropy
  rw [hcalc]
  simp

theorem reOutcome_some_ok_singleton (dataL : List Nat) (fs : Nat) (n : Bool)
    (off l : Int) (vals : List ℝ)
    (h : reOutcome dataL fs l n off (some l) = Except.ok vals) :
    vals = [sliceEntropy (pySlice dataL off (l + off)) n] := by
  by_cases hc : off > (fs : Int) - l ∨ off < 0
  · simp only [reOutcome, if_pos hc] at h
    cases h
  · push_neg at hc
    by_cases hl : l + off > (fs : Int)
    · simp only [reOutcome, if_neg (by push_neg; omega :
        ¬(off > (fs : Int) - l ∨ off < 0)), if_pos hl] at h
      cases h
    · simp only [reOutcome, if_neg (by push_neg; omega :
        ¬(off > (fs : Int) - l ∨ off < 0)), if_neg hl] at h
      obtain ⟨hw1, hw2, -⟩ := (calculate_ok_iff _ _ _ _).mp h
      have hbound := pySlice_length_le dataL off l hc.2 (by omega)
      exact calculate_big_window l n _ vals h (by omega)

theorem pfeLoop_ne_invariant (n : Bool) :
    ∀ secs fo acc, (pfeLoop n fo secs acc).2 ≠ Except.error Err.invariantViolation
      ∧ (pfeLoop n fo secs acc).2 ≠ Except.error Err.indexEmpty := by
  intro secs
  induction secs with
  | nil =>
    intro fo acc
    simp [pfeLoop]
  | cons sec rest ih =>
    intro fo acc
    rcases hre : fo.running_entropy sec.SizeOfRawData n sec.PointerToRawData
      (some sec.SizeOfRawData) with ⟨fo1, out⟩
    cases out with
    | error e =>
      have hek : e.isInvalidRange = true := by
        apply running_entropy_error_kind fo sec.SizeOfRawData n sec.PointerToRawData
          (some sec.SizeOfRawData) e
        rw [hre]
      simp only [pfeLoop, hre]
      constructor <;> intro hcon <;> rw [Except.error.injEq] at hcon <;>
        subst hcon <;> cases hek
    | ok vals =>
      have hsnd := running_entropy_snd fo sec.SizeOfRawData n sec.PointerToRawData
        (some sec.SizeOfRawData)
      rw [hre] at hsnd
      have hv := reOutcome_some_ok_singleton fo.data fo.file_size n
        sec.PointerToRawData sec.SizeOfRawData vals hsnd.symm
      subst hv
      simp only [pfeLoop, hre, List.length_cons, List.length_nil, List.head?_cons]
      rw [if_neg (by omega)]
      exact ih _ _

theorem pfreLoop_ok (w : Int) (n : Bool) :
    ∀ secs fo acc, (∀ s ∈ secs, ∃ v, secOutcome fo w n s = Except.ok v) →
      ∃ fo' lst, pfreLoop w n fo secs acc = (fo', Except.ok (acc ++ lst))
        ∧ List.Forall₂ (fun s r => r.name = s.Name ∧ r.offset = s.PointerToRawData
            ∧ r.length = s.SizeOfRawData ∧ r.entropy_window_length = w
            ∧ r.normalize = n
            ∧ secOutcome fo w n s = Except.ok r.running_entropy) secs lst := by
  intro secs
  induction secs with
  | nil =>
    intro fo acc _
    exact ⟨fo, [], by simp [pfreLoop], List.Forall₂.nil⟩
  | cons sec rest ih =>
    intro fo acc h
    obtain ⟨v, hv⟩ := h sec (List.mem_cons_self sec rest)
    rcases hre : fo.running_entropy w n sec.PointerToRawData (some sec.SizeOfRawData)
      with ⟨fo1, out⟩
    have hout : out = secOutcome fo w n sec := by
      have hh := running_entropy_sec fo w n sec
      rw [hre] at hh
      exact hh
    rw [hv] at hout
    subst hout
    have hid1 : sameIdentity fo fo1 := by
      have hh := running_entropy_fst_identity fo w n sec.PointerToRawData
        (some sec.SizeOfRawData)
      rw [hre] at hh
      exact hh
    set entry : SectionRE :=
      { name := sec.Name
        offset := sec.PointerToRawData
        length := sec.SizeOfRawData
        entropy_window_length := w
        normalize := n
        running_entropy := v } with hentry
    have hid : sameIdentity fo { fo1 with parsed_running_entropy := some (acc ++ [entry]) } :=
      sameIdentity_trans hid1 ⟨rfl, rfl, rfl, rfl⟩
    have hrest : ∀ s ∈ rest, ∃ u,
        secOutcome { fo1 with parsed_running_entropy := some (acc ++ [entry]) } w n s
          = Except.ok u := by
      intro s hs
      rw [secOutcome_congr hid]
      exact h s (List.mem_cons_of_mem _ hs)
    obtain ⟨fo', lst, heq, hf⟩ := ih _ (acc ++ [entry]) hrest
    refine ⟨fo', entry :: lst, ?_, ?_⟩
    · simp only [pfreLoop, hre, heq]
      rw [List.append_assoc]
      rfl
    · refine List.Forall₂.cons ⟨rfl, rfl, rfl, rfl, rfl, hv⟩ ?_
      refine hf.imp ?_
      intro s r hr
      exact ⟨hr.1, hr.2.1, hr.2.2.1, hr.2.2.2.1, hr.2.2.2.2.1,
        by rw [← secOutcome_congr hid]; exact hr.2.2.2.2.2⟩

theorem pfreLoop_err (w : Int) (n : Bool) (s : PESection) (e : Err) :
    ∀ pre post fo acc, (∀ p ∈ pre, ∃ v, secOutcome fo w n p = Except.ok v) →
      secOutcome fo w n s = Except.error e →
      (pfreLoop w n fo (pre ++ s :: post) acc).2 = Except.error e := by
  intro pre
  induction pre with
  | nil =>
    intro post fo acc _ hs
    rcases hre : fo.running_entropy w n s.PointerToRawData (some s.SizeOfRawData)
      with ⟨fo1, out⟩
    have hout : out = secOutcome fo w n s := by
      have hh := running_entropy_sec fo w n s
      rw [hre] at hh
      exact hh
    rw [hs] at hout
    subst hout
    simp [pfreLoop, hre]
  | cons p pre' ih =>
    intro post fo acc hpre hs
    obtain ⟨v, hv⟩ := hpre p (List.mem_cons_self p pre')
    rcases hre : fo.running_entropy w n p.PointerToRawData (some p.SizeOfRawData)
      with ⟨fo1, out⟩
    have hout : out = secOutcome fo w n p := by
      have hh := running_entropy_sec fo w n p
      rw [hre] at hh
      exact hh
    rw [hv] at hout
    subst hout
    have hid1 : sameIdentity fo fo1 := by
      have hh := running_entropy_fst_identity fo w n p.PointerToRawData
        (some p.SizeOfRawData)
      rw [hre] at hh
      exact hh
    set entry : SectionRE :=
      { name := p.Name
        offset := p.PointerToRawData
        length := p.SizeOfRawData
        entropy_window_length := w
        normalize := n
        running_entropy := v } with hentry
    have hid : sameIdentity fo { fo1 with parsed_running_entropy := some (acc ++ [entry]) } :=
      sameIdentity_trans hid1 ⟨rfl, rfl, rfl, rfl⟩
    simp only [List.cons_append, pfreLoop, hre]
    apply ih post _ (acc ++ [entry])
    · intro q hq
      rw [secOutcome_congr hid]
      exact hpre q (List.mem_cons_of_mem _ hq)
    · rw [secOutcome_congr hid]
      exact hs

theorem reCore (data : List Nat) (w off L : Int) (n : Bool) (series : List ℝ)
    (hoff : 0 ≤ off) (hL : 0 ≤ L) (hfit : off + L ≤ (data.length : Int))
    (h : calculate w n (pySlice data off (L + off)) = Except.ok series) :
    series.length = natCeilDiv L.toNat w.toNat
    ∧ ∃ slices : List (List Nat),
        series = slices.map (fun s => sliceEntropy s n)
        ∧ slices.flatten = pySlice data off (L + off)
        ∧ (∀ c ∈ slices, c ≠ [] ∧ c.length ≤ w.toNat)
        ∧ (∀ c ∈ slices.dropLast, c.length = w.toNat) := by
  obtain ⟨hw1, hw2, hout⟩ := (calculate_ok_iff _ _ _ _).mp h
  have hwn : 1 ≤ w.toNat := by omega
  have hspan : ((pySlice data off (L + off)).length : Int) = L :=
    pySlice_length_exact data off L hoff hL hfit
  refine ⟨?_, chunkList w.toNat (pySlice data off (L + off)), hout,
    chunkList_flatten _ hwn _, chunkList_mem _ hwn _, chunkList_dropLast _ hwn _⟩
  rw [hout, List.length_map, chunkList_length _ hwn]
  congr 1
  omega

/-! ## Claim theorems -/

/-- C2: a `running_entropy` call is accepted only when
`0 ≤ offset ≤ file_size − window_size`, and every offset outside that
range (negative, or past `file_size − window_size`, which when
`window_size > file_size` excludes every offset including `0`) fails
with the `InvalidRange` offset error rather than being clamped. -/
theorem running_entropy_offset_validation (fo : FileObject) (w : Int) (n : Bool)
    (off : Int) (lenOpt : Option Int) :
    (∀ fo' series, fo.running_entropy w n off lenOpt = (fo', Except.ok series) →
      0 ≤ off ∧ off ≤ (fo.file_size : Int) - w)
    ∧ ((off < 0 ∨ off > (fo.file_size : Int) - w) →
      (fo.running_entropy w n off lenOpt).2 = Except.error Err.offsetRange
        ∧ Err.isInvalidRange Err.offsetRange = true) := by
  constructor
  · intro fo' series h
    by_cases hc : off > (fo.file_size : Int) - w ∨ off < 0
    · have h2 : (fo.running_entropy w n off lenOpt).2 = Except.ok series := by rw [h]
      rw [running_entropy_snd] at h2
      simp only [reOutcome, if_pos hc] at h2
      exact Except.noConfusion h2
    · push_neg at hc
      exact ⟨hc.2, hc.1⟩
  · intro hc
    have hc' : off > (fo.file_size : Int) - w ∨ off < 0 := hc.symm
    constructor
    · rw [running_entropy_snd]
      simp only [reOutcome, if_pos hc']
    · rfl

/-- Witness for C2: the call with `offset = -1` on a 1-byte session is
rejected with the offset-range error. -/
theorem running_entropy_offset_validation_witness :
    ((-1 : Int) < 0 ∨ (-1 : Int) > ((testFO [0]).file_size : Int) - 1)
    ∧ (((testFO [0]).running_entropy 1 true (-1) none).2 = Except.error Err.offsetRange
        ∧ Err.isInvalidRange Err.offsetRange = true) :=
  ⟨Or.inl (by decide),
    (running_entropy_offset_validation (testFO [0]) 1 true (-1) none).2
      (Or.inl (by decide))⟩

/-- C3: a provided `length` with `offset + length > file_size` fails
with an `InvalidRange` error; `offset + length = file_size` exactly
passes both range validations (the call cannot fail with either range
error); an omitted `length` behaves exactly as the explicit default
`file_size − offset`. -/
theorem running_entropy_length_validation (fo : FileObject) (w : Int) (n : Bool)
    (off l : Int) :
    (l + off > (fo.file_size : Int) →
      ∃ e, (fo.running_entropy w n off (some l)).2 = Except.error e
        ∧ Err.isInvalidRange e = true)
    ∧ (0 ≤ off → off ≤ (fo.file_size : Int) - w → l + off = (fo.file_size : Int) →
      (fo.running_entropy w n off (some l)).2 ≠ Except.error Err.offsetRange
        ∧ (fo.running_entropy w n off (some l)).2 ≠ Except.error Err.lengthRange)
    ∧ fo.running_entropy w n off none
        = fo.running_entropy w n off (some ((fo.file_size : Int) - off)) := by
  refine ⟨?_, ?_, ?_⟩
  · intro hl
    by_cases hc : off > (fo.file_size : Int) - w ∨ off < 0
    · exact ⟨Err.offsetRange, by rw [running_entropy_snd]; simp only [reOutcome, if_pos hc],
        rfl⟩
    · exact ⟨Err.lengthRange,
        by rw [running_entropy_snd]; simp only [reOutcome, if_neg hc, if_pos hl], rfl⟩
  · intro h1 h2 h3
    have hc : ¬(off > (fo.file_size : Int) - w ∨ off < 0) := by omega
    have hlen : ¬(l + off > (fo.file_size : Int)) := by omega
    constructor <;>
      · rw [running_entropy_snd]
        simp only [reOutcome, if_neg hc, if_neg hlen]
        intro hcon
        have hkind := calculate_error _ _ _ _ hcon
        simp at hkind
  · by_cases hc : off > (fo.file_size : Int) - w ∨ off < 0
    · simp only [FileObject.running_entropy, if_pos hc]
    · simp only [FileObject.running_entropy, if_neg hc]
      rw [if_neg (show ¬(((fo.file_size : Int) - off) + off > (fo.file_size : Int))
        by omega)]

/-- Witness for C3: on a 2-byte session, `offset = 1`, `length = 1`
(`offset + length = file_size` exactly) passes both range
validations. -/
theorem running_entropy_length_validation_witness :
    ((0 : Int) ≤ 1 ∧ (1 : Int) ≤ ((testFO [0, 0]).file_size : Int) - 1
      ∧ (1 : Int) + 1 = ((testFO [0, 0]).file_size : Int))
    ∧ (((testFO [0, 0]).running_entropy 1 true 1 (some 1)).2 ≠ Except.error Err.offsetRange
        ∧ ((testFO [0, 0]).running_entropy 1 true 1 (some 1)).2
            ≠ Except.error Err.lengthRange) :=
  ⟨⟨by decide, by decide, by decide⟩,
    (running_entropy_length_validation (testFO [0, 0]) 1 true 1 1).2.1
      (by decide) (by decide) (by decide)⟩

/-- C8: when the file path does not resolve, session construction fails
with `NotFound` at once — independently of the contents and of the hash
collaborators, so no byte is read or hashed — and no session state is
produced. -/
theorem init_notfound (md5Hash sha256Hash : List Nat → String) (filename : String)
    (contents : List Nat) (filetype : String) (peSections : List PESection) :
    FileObject.init md5Hash sha256Hash false filename contents filetype peSections
      = Except.error Err.notFound := rfl

/-- C9: every operation of a session (`running_entropy`, `entropy`,
`parsed_file_running_entropy`, `parsed_file_entropy`) preserves the
buffer, the file size and the two content hashes established at
construction. -/
theorem operations_preserve_identity (fo : FileObject) (w w2 : Int)
    (n n2 n3 n4 : Bool) (off : Int) (lenOpt : Option Int) :
    sameIdentity fo (fo.running_entropy w n off lenOpt).1
    ∧ sameIdentity fo (fo.entropy n2).1
    ∧ sameIdentity fo (fo.parsed_file_running_entropy w2 n3).1
    ∧ sameIdentity fo (fo.parsed_file_entropy n4).1 :=
  ⟨running_entropy_fst_identity fo w n off lenOpt, entropy_fst_identity fo n2,
    pfre_fst_identity fo w2 n3, pfe_fst_identity fo n4⟩

/-- C10 (amended): a `running_entropy` call that fails its offset or
length range validation leaves the session state unchanged — those
validations complete before the introspection fields are written. -/
theorem validation_failure_preserves_state (fo fo' : FileObject) (w : Int) (n : Bool)
    (off : Int) (lenOpt : Option Int) (e : Err)
    (h : fo.running_entropy w n off lenOpt = (fo', Except.error e))
    (he : e = Err.offsetRange ∨ e = Err.lengthRange) :
    fo' = fo := by
  by_cases hc : off > (fo.file_size : Int) - w ∨ off < 0
  · simp only [FileObject.running_entropy, if_pos hc] at h
    injection h with h1 h2
    exact h1.symm
  · cases lenOpt with
    | none =>
      simp only [FileObject.running_entropy, if_neg hc] at h
      have h2 : (reFinish fo w n off ((fo.file_size : Int) - off)).2
          = Except.error e := by rw [h]
      rw [reFinish_snd] at h2
      have hkind := calculate_error _ _ _ _ h2
      subst hkind
      rcases he with h3 | h3 <;> simp at h3
    | some l =>
      simp only [FileObject.running_entropy, if_neg hc] at h
      by_cases hl : l + off > (fo.file_size : Int)
      · rw [if_pos hl] at h
        injection h with h1 h2
        exact h1.symm
      · rw [if_neg hl] at h
        have h2 : (reFinish fo w n off l).2 = Except.error e := by rw [h]
        rw [reFinish_snd] at h2
        have hkind := calculate_error _ _ _ _ h2
        subst hkind
        rcases he with h3 | h3 <;> simp at h3

/-- Witness for C10 (amended): an offset-validation failure on a
concrete session returns the session unchanged. -/
theorem validation_failure_preserves_state_witness :
    ((testFO [0]).running_entropy 1 true (-1) none
        = (testFO [0], Except.error Err.offsetRange))
    ∧ testFO [0] = testFO [0] :=
  have h : (testFO [0]).running_entropy 1 true (-1) none
      = (testFO [0], Except.error Err.offsetRange) := by rfl
  ⟨h, validation_failure_preserves_state (testFO [0]) (testFO [0]) 1 true (-1) none
    Err.offsetRange h (Or.inl rfl)⟩

/-- Counterexample to C10 as stated: the call
`running_entropy(window_size = 3, offset = 0, length = 2)` on a 4-byte
session fails with an `InvalidRange` error (the engine rejects a window
larger than the selected span), yet the recorded
`running_entropy_window_size` has been overwritten from `0` to `3` by
the failing call. -/
theorem c10_counterexample :
    ((testFO [0, 0, 0, 0]).running_entropy 3 false 0 (some 2)).2
        = Except.error Err.engineInvalid
    ∧ Err.isInvalidRange Err.engineInvalid = true
    ∧ ((testFO [0, 0, 0, 0]).running_entropy 3 false 0
        (some 2)).1.running_entropy_window_size = 3
    ∧ (testFO [0, 0, 0, 0]).running_entropy_window_size = 0 :=
  ⟨rfl, rfl, rfl, rfl⟩

/-- C1 (amended): for every accepted `running_entropy` call whose
provided length is non-negative (or omitted), the returned series has
exactly `⌈length / window_size⌉` entries, one per slice of the
left-to-right partition of the selected span, each scored over its own
actual byte count, every slice but the last of exactly `window_size`
bytes and the last non-empty and at most `window_size` bytes. -/
theorem running_entropy_series_shape (fo : FileObject) (w : Int) (n : Bool)
    (off : Int) (lenOpt : Option Int) (series : List ℝ)
    (hwf : fo.file_size = fo.data.length)
    (hlen : ∀ l, lenOpt = some l → 0 ≤ l)
    (h : (fo.running_entropy w n off lenOpt).2 = Except.ok series) :
    series.length
        = natCeilDiv (lenOpt.getD ((fo.file_size : Int) - off)).toNat w.toNat
    ∧ ∃ slices : List (List Nat),
        series = slices.map (fun s => sliceEntropy s n)
        ∧ slices.flatten
            = pySlice fo.data off ((lenOpt.getD ((fo.file_size : Int) - off)) + off)
        ∧ (∀ c ∈ slices, c ≠ [] ∧ c.length ≤ w.toNat)
        ∧ (∀ c ∈ slices.dropLast, c.length = w.toNat) := by
  rw [running_entropy_snd] at h
  by_cases hc : off > (fo.file_size : Int) - w ∨ off < 0
  · simp only [reOutcome, if_pos hc] at h
    exact Except.noConfusion h
  · push_neg at hc
    cases lenOpt with
    | none =>
      simp only [reOutcome,
        if_neg (show ¬(off > (fo.file_size : Int) - w ∨ off < 0) by omega)] at h
      obtain ⟨hw1, -, -⟩ := (calculate_ok_iff _ _ _ _).mp h
      simp only [Option.getD_none]
      exact reCore fo.data w off ((fo.file_size : Int) - off) n series (by omega)
        (by omega) (by omega) h
    | some l =>
      have hl0 : 0 ≤ l := hlen l rfl
      by_cases hl : l + off > (fo.file_size : Int)
      · simp only [reOutcome,
          if_neg (show ¬(off > (fo.file_size : Int) - w ∨ off < 0) by omega),
          if_pos hl] at h
        exact Except.noConfusion h
      · simp only [reOutcome,
          if_neg (show ¬(off > (fo.file_size : Int) - w ∨ off < 0) by omega),
          if_neg hl] at h
        simp only [Option.getD_some]
        exact reCore fo.data w off l n series (by omega) hl0 (by omega) h

/-- Witness for C1 (amended): a 2-byte session, `window_size = 1`,
`offset = 0`, `length = 2` yields a series of
`⌈2 / 1⌉ = 2` entries. -/
theorem running_entropy_series_shape_witness :
    ((testFO [0, 0]).file_size = (testFO [0, 0]).data.length
      ∧ ((testFO [0, 0]).running_entropy 1 false 0 (some 2)).2
          = Except.ok [sliceEntropy [0] false, sliceEntropy [0] false])
    ∧ [sliceEntropy [0] false, sliceEntropy [0] false].length
        = natCeilDiv ((some (2 : Int)).getD (((testFO [0, 0]).file_size : Int) - 0)).toNat
            (1 : Int).toNat :=
  have h : ((testFO [0, 0]).running_entropy 1 false 0 (some 2)).2
      = Except.ok [sliceEntropy [0] false, sliceEntropy [0] false] := by rfl
  ⟨⟨rfl, h⟩, (running_entropy_series_shape (testFO [0, 0]) 1 false 0 (some 2)
    [sliceEntropy [0] false, sliceEntropy [0] false] rfl
    (fun l hl => by cases hl; decide) h).1⟩

/-- Counterexample to C1 as stated: the call
`running_entropy(window_size = 1, offset = 0, length = -1)` on a 2-byte
session is accepted (Python slicing interprets the negative stop bound
from the end of the buffer, selecting one byte), and the returned
series has 1 entry while `⌈length / window_size⌉ = ⌈-1 / 1⌉ = -1`. -/
theorem c1_counterexample :
    ((testFO [0, 0]).running_entropy 1 false 0 (some (-1))).2
        = Except.ok [sliceEntropy [0] false]
    ∧ [sliceEntropy [0] false].length = 1
    ∧ ⌈((-1 : ℚ) / 1)⌉ = -1
    ∧ ((-1 : ℤ) ≠ 1) :=
  ⟨by rfl, rfl,
    by rw [div_one, show ((-1 : ℚ)) = (((-1 : ℤ) : ℚ)) by norm_num, Int.ceil_intCast],
    by decide⟩

/-- C4: on a non-empty buffer, whole-file `entropy(normalize)` returns
exactly the single value of the series computed by
`running_entropy(window_size = file_size, normalize, offset = 0)`. -/
theorem entropy_eq_whole_running_entropy (fo : FileObject) (n : Bool)
    (hne : fo.data ≠ []) (hwf : fo.file_size = fo.data.length) :
    (fo.entropy n).2 = Except.ok (sliceEntropy fo.data n)
    ∧ (fo.running_entropy (fo.file_size : Int) n 0 none).2
        = Except.ok [sliceEntropy fo.data n] := by
  refine ⟨entropy_ok fo n hne, ?_⟩
  rw [running_entropy_snd]
  have hc : ¬((0 : Int) > (fo.file_size : Int) - (fo.file_size : Int)
      ∨ (0 : Int) < 0) := by omega
  simp only [reOutcome, if_neg hc]
  have hlen : 1 ≤ fo.data.length := List.length_pos.mpr hne
  have hspan : pySlice fo.data 0 (((fo.file_size : Int) - 0) + 0) = fo.data := by
    rw [show ((fo.file_size : Int) - 0) + 0 = (fo.data.length : Int) by omega]
    exact pySlice_full fo.data
  rw [hspan, calculate_ok_iff]
  refine ⟨by omega, by omega, ?_⟩
  rw [show ((fo.file_size : Int)).toNat = fo.data.length by omega,
    chunkList_self _ hlen]
  simp

/-- Witness for C4 at a concrete 1-byte session. -/
theorem entropy_eq_whole_running_entropy_witness :
    ((testFO [5]).data ≠ [] ∧ (testFO [5]).file_size = (testFO [5]).data.length)
    ∧ ((testFO [5]).entropy false).2 = Except.ok (sliceEntropy (testFO [5]).data false)
    ∧ ((testFO [5]).running_entropy ((testFO [5]).file_size : Int) false 0 none).2
        = Except.ok [sliceEntropy (testFO [5]).data false] :=
  ⟨⟨by decide, rfl⟩,
    (entropy_eq_whole_running_entropy (testFO [5]) false (by decide) rfl).1,
    (entropy_eq_whole_running_entropy (testFO [5]) false (by decide) rfl).2⟩

/-- C5: computing an aggregate entropy with the window equal to the
scored span always yields exactly one slice, so the
`InvariantViolation` branch of `entropy` and of `parsed_file_entropy`
is unreachable. -/
theorem invariant_violation_unreachable (fo : FileObject) (n m : Bool) :
    (fo.entropy n).2 ≠ Except.error Err.invariantViolation
    ∧ (fo.parsed_file_entropy m).2 ≠ Except.error Err.invariantViolation := by
  constructor
  · unfold FileObject.entropy
    cases hcalc : calculate (fo.data.length : Int) n fo.data with
    | error e =>
      have hk := calculate_error _ _ _ _ hcalc
      subst hk
      simp
    | ok vals =>
      have hv := calculate_big_window _ n fo.data vals hcalc (le_refl _)
      subst hv
      simp
  · cases hp : fo.parsedfile with
    | none => simp [FileObject.parsed_file_entropy, hp]
    | some secs =>
      simp only [FileObject.parsed_file_entropy, hp]
      rcases hl : pfeLoop m
          { fo with parsedfile := some secs, parsed_entropy := some [] } secs []
        with ⟨fo1, out⟩
      have hloop := pfeLoop_ne_invariant m secs
        { fo with parsedfile := some secs, parsed_entropy := some [] } []
      rw [hl] at hloop
      cases out with
      | error e => simpa using hloop.1
      | ok lst => simp

/-- Witness for C5: a concrete PE session with one section. -/
theorem invariant_violation_unreachable_witness :
    ((testPE [0, 0] [⟨".text", 0, 2⟩]).parsed_file_entropy true).2
      ≠ Except.error Err.invariantViolation :=
  (invariant_violation_unreachable (testPE [0, 0] [⟨".text", 0, 2⟩]) true true).2

/-- C6: when no structured-format collaborator is attached
(`parsedfile` is `none`), both region operations return the unavailable
result (`None`) without error and without touching the session, while
whole-file `entropy` remains available on the same session. -/
theorem no_parsedfile_returns_none (fo : FileObject) (w : Int) (n m k : Bool)
    (hp : fo.parsedfile = none) :
    fo.parsed_file_running_entropy w n = (fo, Except.ok none)
    ∧ fo.parsed_file_entropy m = (fo, Except.ok none)
    ∧ (fo.data ≠ [] → ∃ v, (fo.entropy k).2 = Except.ok v) := by
  refine ⟨?_, ?_, ?_⟩
  · simp [FileObject.parsed_file_running_entropy, hp]
  · simp [FileObject.parsed_file_entropy, hp]
  · intro hne
    exact ⟨sliceEntropy fo.data k, entropy_ok fo k hne⟩

/-- Witness for C6 at a concrete non-PE session. -/
theorem no_parsedfile_returns_none_witness :
    ((testFO [7]).parsedfile = none ∧ (testFO [7]).data ≠ [])
    ∧ (testFO [7]).parsed_file_running_entropy 256 true = (testFO [7], Except.ok none)
    ∧ ∃ v, ((testFO [7]).entropy true).2 = Except.ok v :=
  ⟨⟨rfl, by decide⟩,
    (no_parsedfile_returns_none (testFO [7]) 256 true true true rfl).1,
    (no_parsedfile_returns_none (testFO [7]) 256 true true true rfl).2.2 (by decide)⟩

/-- C7: over an attached section list, if every section's
`running_entropy` call succeeds the batch returns the wrapped results
in input order (one record per section, carrying that section's
descriptor and series); if any section's call fails, the whole batch
aborts with the first failing section's error and returns no partial
result. -/
theorem parsed_running_entropy_batch (fo : FileObject) (secs : List PESection)
    (w : Int) (n : Bool) (hp : fo.parsedfile = some secs) :
    ((∀ s ∈ secs, ∃ v, secOutcome fo w n s = Except.ok v) →
      ∃ fo' lst, fo.parsed_file_running_entropy w n = (fo', Except.ok (some lst))
        ∧ List.Forall₂ (fun s r => r.name = s.Name ∧ r.offset = s.PointerToRawData
            ∧ r.length = s.SizeOfRawData ∧ r.entropy_window_length = w
            ∧ r.normalize = n
            ∧ secOutcome fo w n s = Except.ok r.running_entropy) secs lst)
    ∧ (∀ pre s post e, secs = pre ++ s :: post →
        (∀ p ∈ pre, ∃ v, secOutcome fo w n p = Except.ok v) →
        secOutcome fo w n s = Except.error e →
        (fo.parsed_file_running_entropy w n).2 = Except.error e) := by
  have hidR : sameIdentity fo
      { fo with parsedfile := some secs, parsed_running_entropy := some [] } :=
    ⟨rfl, rfl, rfl, rfl⟩
  constructor
  · intro hok
    have hok' : ∀ s ∈ secs, ∃ v,
        secOutcome { fo with parsedfile := some secs, parsed_running_entropy := some [] }
          w n s = Except.ok v := by
      intro s hs
      rw [secOutcome_congr hidR]
      exact hok s hs
    obtain ⟨fo', lst, heq, hf⟩ := pfreLoop_ok w n secs _ [] hok'
    rw [List.nil_append] at heq
    refine ⟨fo', lst, ?_, ?_⟩
    · simp only [FileObject.parsed_file_running_entropy, hp]
      rw [heq]
    · refine hf.imp ?_
      intro s r hr
      exact ⟨hr.1, hr.2.1, hr.2.2.1, hr.2.2.2.1, hr.2.2.2.2.1,
        by rw [← secOutcome_congr hidR]; exact hr.2.2.2.2.2⟩
  · intro pre s post e hsplit hpre hs
    subst hsplit
    have hpre' : ∀ p ∈ pre, ∃ v,
        secOutcome
          { fo with
            parsedfile := some (pre ++ s :: post)
            parsed_running_entropy := some [] } w n p = Except.ok v := by
      intro p hq
      rw [secOutcome_congr hidR]
      exact hpre p hq
    have hs' : secOutcome
        { fo with
          parsedfile := some (pre ++ s :: post)
          parsed_running_entropy := some [] } w n s = Except.error e := by
      rw [secOutcome_congr hidR]
      exact hs
    have herr := pfreLoop_err w n s e pre post _ [] hpre' hs'
    simp only [FileObject.parsed_file_running_entropy, hp]
    rcases hl : pfreLoop w n
        { fo with
          parsedfile := some (pre ++ s :: post)
          parsed_running_entropy := some [] } (pre ++ s :: post) []
      with ⟨fo1, out⟩
    rw [hl] at herr
    cases out with
    | error e2 => simpa using herr
    | ok lst => exact absurd herr (by simp)

/-- Witness for C7: a batch whose single section has a negative raw
offset aborts with that section's offset-range error. -/
theorem parsed_running_entropy_batch_witness :
    ((testPE [0, 0] [⟨".b", -1, 2⟩]).parsedfile = some [⟨".b", -1, 2⟩]
      ∧ secOutcome (testPE [0, 0] [⟨".b", -1, 2⟩]) 1 true ⟨".b", -1, 2⟩
          = Except.error Err.offsetRange)
    ∧ ((testPE [0, 0] [⟨".b", -1, 2⟩]).parsed_file_running_entropy 1 true).2
        = Except.error Err.offsetRange :=
  ⟨⟨rfl, by rfl⟩, (parsed_running_entropy_batch (testPE [0, 0] [⟨".b", -1, 2⟩])
    [⟨".b", -1, 2⟩] 1 true rfl).2 [] ⟨".b", -1, 2⟩ [] Err.offsetRange rfl
    (by simp) (by rfl)⟩

end Malgazer
